import Mathlib

/-!
Verification of the IPTV channel-aggregation pipeline (`main.py`,
`utils/parser.py`, `config.py`).

Strings are modelled as lists of Unicode code points (`List Nat`), with
ASCII semantics for the character classes and case mapping used by the
Python code (`\w`, `\s`, `str.strip`, `str.upper`).  Network effects are
modelled by oracles: the latency probe `_check_response_time` becomes a
function `Str → WithTop ℚ` (`⊤` = unreachable / `float('inf')`), and a
fetched source becomes an `Option` batch (`none` = the fetch or parse
raised).  Python's stable `sorted` is modelled by `List.insertionSort`,
whose `orderedInsert` places an element before the first element that is
not strictly smaller — exactly the stable behaviour of CPython's sort.
-/

/-- Channel names, URLs and file contents as lists of code points. -/
abbrev Str := List Nat

/-- Code points of a Lean string literal; used to write concrete inputs. -/
def ofStr (s : String) : Str := s.toList.map Char.toNat

/-- ASCII digit, as in the regex class `\d`. -/
def isDigitC (c : Nat) : Bool := decide (48 ≤ c ∧ c ≤ 57)

/-- ASCII lowercase letter. -/
def isLowerC (c : Nat) : Bool := decide (97 ≤ c ∧ c ≤ 122)

/-- ASCII uppercase letter. -/
def isUpperC (c : Nat) : Bool := decide (65 ≤ c ∧ c ≤ 90)

/-- The regex class `\w` (ASCII): letters, digits, underscore. -/
def isWordC (c : Nat) : Bool := isUpperC c || isLowerC c || isDigitC c || decide (c = 95)

/-- The regex class `\s` / `str.strip` whitespace (ASCII): space, TAB..CR. -/
def isSpaceC (c : Nat) : Bool := decide (c = 32 ∨ (9 ≤ c ∧ c ≤ 13))

/-- `str.upper` on one character (ASCII case mapping). -/
def toUpperC (c : Nat) : Nat := if isLowerC c then c - 32 else c

/-- Characters kept by `re.sub(r'[^\w\s-]', '', name)`:
word characters, whitespace, and the hyphen. -/
def keepC (c : Nat) : Bool := isWordC c || isSpaceC c || decide (c = 45)

/-- `str.strip()`: drop leading and trailing whitespace. -/
def stripStr (s : Str) : Str :=
  ((s.dropWhile isSpaceC).reverse.dropWhile isSpaceC).reverse

/-- `ChannelManager._clean_channel_name` (main.py:100-102):
`re.sub(r'[^\w\s-]', '', name).strip().upper()`. -/
def cleanChannelName (s : Str) : Str :=
  (stripStr (s.filter keepC)).map toUpperC

lemma isSpaceC_toUpperC (c : Nat) : isSpaceC (toUpperC c) = isSpaceC c := by
  unfold toUpperC
  split
  · rename_i h
    simp only [isLowerC, decide_eq_true_eq] at h
    simp only [isSpaceC, decide_eq_decide]
    omega
  · rfl

lemma keepC_toUpperC (c : Nat) : keepC (toUpperC c) = keepC c := by
  unfold toUpperC
  split
  · rename_i h
    simp only [isLowerC, decide_eq_true_eq] at h
    rw [Bool.eq_iff_iff]
    simp only [keepC, isWordC, isSpaceC, isUpperC, isLowerC, isDigitC,
      Bool.or_eq_true, decide_eq_true_eq]
    omega
  · rfl

lemma toUpperC_idem (c : Nat) : toUpperC (toUpperC c) = toUpperC c := by
  unfold toUpperC
  split
  · rename_i h
    simp only [isLowerC, decide_eq_true_eq] at h
    rw [if_neg]
    simp only [isLowerC, decide_eq_true_eq]
    omega
  · rfl

lemma head?_dropWhile_false (p : Nat → Bool) (l : Str) :
    ∀ a, (l.dropWhile p).head? = some a → p a = false := by
  induction l with
  | nil => intro a h; simp [List.dropWhile] at h
  | cons c t ih =>
    intro a h
    rw [List.dropWhile_cons] at h
    split at h
    · exact ih a h
    · simp at h
      subst h
      simp_all

lemma dropWhile_eq_self_of_head? (p : Nat → Bool) (l : Str)
    (h : ∀ a, l.head? = some a → p a = false) : l.dropWhile p = l := by
  cases l with
  | nil => rfl
  | cons c t =>
    rw [List.dropWhile_cons]
    have := h c rfl
    simp [this]

lemma getLast?_of_suffix {l₁ l₂ : Str} (h : l₁ <:+ l₂) (hne : l₁ ≠ []) :
    l₁.getLast? = l₂.getLast? := by
  obtain ⟨t, rfl⟩ := h
  exact (List.getLast?_append_of_ne_nil t hne).symm

/-- The first character of a stripped string is not whitespace. -/
lemma head?_stripStr (l : Str) :
    ∀ a, (stripStr l).head? = some a → isSpaceC a = false := by
  intro a h
  unfold stripStr at h
  rw [List.head?_reverse] at h
  have hsuff : (l.dropWhile isSpaceC).reverse.dropWhile isSpaceC <:+
      (l.dropWhile isSpaceC).reverse := List.dropWhile_suffix _
  have hne : (l.dropWhile isSpaceC).reverse.dropWhile isSpaceC ≠ [] := by
    intro hnil; rw [hnil] at h; simp at h
  rw [getLast?_of_suffix hsuff hne, List.getLast?_reverse] at h
  exact head?_dropWhile_false isSpaceC l a h

/-- The last character of a stripped string is not whitespace. -/
lemma getLast?_stripStr (l : Str) :
    ∀ a, (stripStr l).getLast? = some a → isSpaceC a = false := by
  intro a h
  unfold stripStr at h
  rw [List.getLast?_reverse] at h
  exact head?_dropWhile_false isSpaceC _ a h

/-- A string whose first and last characters are not whitespace is fixed
by `strip`. -/
lemma stripStr_eq_self (l : Str)
    (h₁ : ∀ a, l.head? = some a → isSpaceC a = false)
    (h₂ : ∀ a, l.getLast? = some a → isSpaceC a = false) :
    stripStr l = l := by
  unfold stripStr
  rw [dropWhile_eq_self_of_head? _ _ h₁]
  rw [dropWhile_eq_self_of_head? _ _ (by
    intro a ha
    rw [List.head?_reverse] at ha
    exact h₂ a ha)]
  exact List.reverse_reverse l

lemma stripStr_idem (l : Str) : stripStr (stripStr l) = stripStr l :=
  stripStr_eq_self _ (head?_stripStr l) (getLast?_stripStr l)

lemma mem_stripStr {a : Nat} {l : Str} (h : a ∈ stripStr l) : a ∈ l := by
  unfold stripStr at h
  rw [List.mem_reverse] at h
  have h₁ := (@List.dropWhile_suffix Nat ((l.dropWhile isSpaceC).reverse)
    isSpaceC).subset h
  rw [List.mem_reverse] at h₁
  exact (List.dropWhile_suffix isSpaceC).subset h₁

lemma stripStr_map_toUpperC (l : Str) :
    stripStr (l.map toUpperC) = (stripStr l).map toUpperC := by
  unfold stripStr
  rw [List.dropWhile_map, ← List.map_reverse, List.dropWhile_map,
    ← List.map_reverse]
  have : (isSpaceC ∘ toUpperC) = isSpaceC := funext isSpaceC_toUpperC
  rw [this]

lemma cleanChannelName_map_toUpperC (s : Str) :
    cleanChannelName (s.map toUpperC) = cleanChannelName s := by
  unfold cleanChannelName
  rw [List.filter_map]
  have : (keepC ∘ toUpperC) = keepC := funext keepC_toUpperC
  rw [this, stripStr_map_toUpperC, List.map_map]
  have : (toUpperC ∘ toUpperC) = toUpperC := funext toUpperC_idem
  rw [this]

/-- C7: the name-canonicalization function `_clean_channel_name` is
idempotent: cleaning an already-cleaned name changes nothing. -/
theorem cleanChannelName_idempotent (s : Str) :
    cleanChannelName (cleanChannelName s) = cleanChannelName s := by
  set t := cleanChannelName s with ht
  have hmem : ∀ c ∈ t, keepC c = true := by
    intro c hc
    rw [ht] at hc
    unfold cleanChannelName at hc
    rw [List.mem_map] at hc
    obtain ⟨c', hc', rfl⟩ := hc
    have := mem_stripStr hc'
    rw [List.mem_filter] at this
    rw [keepC_toUpperC]
    exact this.2
  have hfilter : t.filter keepC = t := List.filter_eq_self.mpr hmem
  have hhead : ∀ a, t.head? = some a → isSpaceC a = false := by
    intro a h
    rw [ht] at h
    unfold cleanChannelName at h
    rw [List.head?_map] at h
    cases hu : (stripStr (s.filter keepC)).head? with
    | none => rw [hu] at h; simp at h
    | some b =>
      rw [hu] at h
      simp at h
      subst h
      rw [isSpaceC_toUpperC]
      exact head?_stripStr _ b hu
  have hlast : ∀ a, t.getLast? = some a → isSpaceC a = false := by
    intro a h
    rw [ht] at h
    unfold cleanChannelName at h
    rw [List.getLast?_map] at h
    cases hu : (stripStr (s.filter keepC)).getLast? with
    | none => rw [hu] at h; simp at h
    | some b =>
      rw [hu] at h
      simp at h
      subst h
      rw [isSpaceC_toUpperC]
      exact getLast?_stripStr _ b hu
  have hupper : t.map toUpperC = t := by
    rw [ht]
    unfold cleanChannelName
    rw [List.map_map]
    have : (toUpperC ∘ toUpperC) = toUpperC := funext toUpperC_idem
    rw [this]
  unfold cleanChannelName
  rw [hfilter, stripStr_eq_self t hhead hlast, hupper]

/-- C2 (counterexample): `_clean_channel_name` performs no zero-padding
normalization and no whitespace collapsing, so the template entry "CCTV1"
does not match the source name "CCTV-01": their canonical names differ
(the hyphen and the leading zero survive cleaning), and an inner double
space also survives. -/
theorem cleanChannelName_no_digit_normalization :
    cleanChannelName (ofStr "CCTV-01") ≠ cleanChannelName (ofStr "CCTV1") ∧
    cleanChannelName (ofStr "CCTV-01") = ofStr "CCTV-01" ∧
    cleanChannelName (ofStr "CCTV  5") = ofStr "CCTV  5" := by
  refine ⟨by decide, by decide, by decide⟩

/-- C2 (amended): `_clean_channel_name` removes characters outside
word/whitespace/hyphen, strips leading and trailing whitespace (without
collapsing inner whitespace and without normalizing digit runs), and
upper-cases; consequently two raw names that agree after per-character
upper-casing — i.e. differ only in letter casing — receive the same
canonical name.  Digit zero-padding or punctuation differences (e.g.
"CCTV1" vs "CCTV-01") are not identified. -/
theorem cleanChannelName_case_insensitive (s t : Str)
    (h : s.map toUpperC = t.map toUpperC) :
    cleanChannelName s = cleanChannelName t := by
  rw [← cleanChannelName_map_toUpperC s, ← cleanChannelName_map_toUpperC t, h]

/-- Witness for C2 (amended): "cctv1" and "CCTV1" differ only in casing
and canonicalize identically. -/
theorem cleanChannelName_case_insensitive_witness :
    cleanChannelName (ofStr "cctv1") = cleanChannelName (ofStr "CCTV1") :=
  cleanChannelName_case_insensitive (ofStr "cctv1") (ofStr "CCTV1") (by decide)

/-! ### The parser (`utils/parser.py`) -/

/-- Association-list model of a Python (Ordered)dict: first binding wins,
new keys are appended at the end. -/
abbrev Index := List (Str × List Str)

/-- Python dict lookup on the assoc-list model. -/
def lookupIdx (idx : Index) (name : Str) : Option (List Str) :=
  match idx with
  | [] => none
  | e :: rest => if e.1 = name then some e.2 else lookupIdx rest name

/-- Python's substring test `pat in s`. -/
def isSubstr (pat : Str) : Str → Bool
  | [] => pat.isEmpty
  | c :: t => pat.isPrefixOf (c :: t) || isSubstr pat t

/-- `str.split(sep, 1)` for a one-character separator, as an `Option`:
`none` when the separator does not occur (Python's `sep not in line`). -/
def splitFirst (sep : Nat) : Str → Option (Str × Str)
  | [] => none
  | c :: t =>
    if c = sep then some ([], t)
    else match splitFirst sep t with
      | none => none
      | some (a, b) => some (c :: a, b)

/-- `str.split(sep)` (all occurrences) for a one-character separator. -/
def splitAll (sep : Nat) : Str → List Str
  | [] => [[]]
  | c :: t =>
    if c = sep then [] :: splitAll sep t
    else match splitAll sep t with
      | [] => [[c]]
      | p :: ps => (c :: p) :: ps

/-- `str.splitlines()` worker: `\n`, `\r` and `\r\n` end a line; a break at
end of input produces no trailing empty line. -/
def splitLinesGo (acc : Str) : Str → List Str
  | [] => if acc = [] then [] else [acc.reverse]
  | c :: t =>
    if c = 13 then
      acc.reverse ::
        (match t with
         | 10 :: t' => splitLinesGo [] t'
         | t' => splitLinesGo [] t')
    else if c = 10 then acc.reverse :: splitLinesGo [] t
    else splitLinesGo (c :: acc) t

/-- `str.splitlines()`. -/
def splitLines (s : Str) : List Str := splitLinesGo [] s

/-- `str.split(sep)` for a multi-character separator `c0 :: sr`,
non-overlapping, left to right. -/
def splitOnSepGo (c0 : Nat) (sr : Str) (acc : Str) : Str → List Str
  | [] => [acc.reverse]
  | c :: t =>
    if (c0 :: sr).isPrefixOf (c :: t) then
      acc.reverse :: splitOnSepGo c0 sr [] (t.drop sr.length)
    else splitOnSepGo c0 sr (c :: acc) t
termination_by s => s.length
decreasing_by
  · simp [List.length_drop]; omega
  · simp [List.length_cons]

/-- `content.split(sep)` for a nonempty separator string. -/
def splitOnSep (sep : Str) (s : Str) : List Str :=
  match sep with
  | [] => [s]
  | c :: r => splitOnSepGo c r [] s

/-- `_is_blacklisted` (parser.py:81-83): case-SENSITIVE substring test
`any(bl in url for bl in url_blacklist)`. -/
def isBlacklistedSub (bl : List Str) (url : Str) : Bool :=
  bl.any (fun b => isSubstr b url)

/-- One part of the regex `\b(?:\d{1,3}\.){3}\d{1,3}\b`: the candidate
substring is exactly four runs of 1-3 digits separated by dots. -/
def isDottedQuad (t : Str) : Bool :=
  let ps := splitAll 46 t
  decide (ps.length = 4) &&
    ps.all (fun p => decide (1 ≤ p.length ∧ p.length ≤ 3) && p.all isDigitC)

/-- The slice `s[i : i+len]`. -/
def substrAt (s : Str) (i len : Nat) : Str := (s.drop i).take len

/-- `re.search(r'\b(?:\d{1,3}\.){3}\d{1,3}\b', s)` succeeds: some slice of
`s` is a dotted quad whose two ends sit at word boundaries. -/
def hasIPv4 (s : Str) : Bool :=
  (List.range (s.length + 1)).any fun i =>
    (List.range (s.length + 1)).any fun len =>
      isDottedQuad (substrAt s i len) &&
        (decide (i = 0) || !isWordC (s.getD (i - 1) 0)) &&
        (decide (s.length ≤ i + len) || !isWordC (s.getD (i + len) 0))

/-- Hexadecimal digit or colon, the class `[0-9a-fA-F:]`. -/
def isHexColonC (c : Nat) : Bool :=
  isDigitC c || decide (97 ≤ c ∧ c ≤ 102) || decide (65 ≤ c ∧ c ≤ 70) ||
    decide (c = 58)

/-- A bracketed IPv6 literal `\[([0-9a-fA-F:]+)\]`: `[`, then a nonempty
run of hex digits / colons, then `]`. -/
def isBracketIPv6 (t : Str) : Bool :=
  match t with
  | 91 :: rest =>
    decide (rest.getLast? = some 93) && !rest.dropLast.isEmpty &&
      rest.dropLast.all isHexColonC
  | _ => false

/-- `re.search` for the bracketed-IPv6 alternative: some slice matches. -/
def hasIPv6 (s : Str) : Bool :=
  (List.range (s.length + 1)).any fun i =>
    (List.range (s.length + 1)).any fun len =>
      isBracketIPv6 (substrAt s i len)

/-- `_has_valid_ip` (parser.py:85-89): the URL contains an IPv4 dotted
quad or a bracketed IPv6 literal. -/
def hasValidIp (s : Str) : Bool := hasIPv4 s || hasIPv6 s

/-- `_is_valid_entry` (parser.py:64-72): nonempty name and URL, URL not
blacklisted, URL contains a recognizable IP. -/
def isValidEntry (bl : List Str) (name url : Str) : Bool :=
  !name.isEmpty && !url.isEmpty && !isBlacklistedSub bl url && hasValidIp url

/-- `_add_channel` (parser.py:74-79): create the key on first sight
(appended at the end, OrderedDict insertion order), then append the URL
unless the channel already has it. -/
def addChannel (channels : Index) (name url : Str) : Index :=
  match lookupIdx channels name with
  | none => channels ++ [(name, [url])]
  | some us =>
    if url ∈ us then channels
    else channels.map (fun e => if e.1 = name then (e.1, e.2 ++ [url]) else e)

/-- One iteration of the `_parse_txt` loop (parser.py:52-62): strip the
line, skip it when empty or comma-free, else split at the first comma and
strip both halves. -/
def parseTxtLine (bl : List Str) (channels : Index) (rawLine : Str) : Index :=
  if stripStr rawLine = [] then channels
  else
    match splitFirst 44 (stripStr rawLine) with
    | none => channels
    | some (n, u) =>
      if isValidEntry bl (stripStr n) (stripStr u) then
        addChannel channels (stripStr n) (stripStr u)
      else channels

/-- `_parse_txt` (parser.py:50-62). -/
def parseTxt (bl : List Str) (content : Str) : Index :=
  (splitLines content).foldl (parseTxtLine bl) []

/-- The M3U entry marker `"#EXTINF:-1,"` used by `_parse_m3u`. -/
def extinfMarker : Str := ofStr "#EXTINF:-1,"

/-- One iteration of the `_parse_m3u` loop (parser.py:39-48):
`entry.split("\n", 1)`; entries without a newline are skipped. -/
def parseM3uEntry (bl : List Str) (channels : Index) (entry : Str) : Index :=
  match splitFirst 10 entry with
  | none => channels
  | some (p0, rest) =>
    if isValidEntry bl (stripStr p0) (stripStr rest) then
      addChannel channels (stripStr p0) (stripStr rest)
    else channels

/-- `_parse_m3u` (parser.py:36-48): split on the entry marker, skip the
leading piece. -/
def parseM3u (bl : List Str) (content : Str) : Index :=
  ((splitOnSep extinfMarker content).drop 1).foldl (parseM3uEntry bl) []

/-- The two source formats produced by `_detect_source_type`. -/
inductive SourceType
  | m3u
  | txt
deriving DecidableEq

/-- `parse_source_content` (parser.py:25-34). -/
def parseSourceContent (bl : List Str) (content : Str) : SourceType → Index
  | .m3u => parseM3u bl content
  | .txt => parseTxt bl content

/-- `config.url_blacklist` (config.py:55-90). -/
def url_blacklist : List Str :=
  [ofStr "epg.pw/stream/",
   ofStr "103.40.13.71:12390",
   ofStr "[2409:8087:1a01:df::4077]/PLTV/",
   ofStr "http://[2409:8087:1a01:df::7005]:80/ottrrs.hl.chinamobile.com/PLTV/88888888/224/3221226419/index.m3u8",
   ofStr "http://[2409:8087:1a01:df::7005]:80/ottrrs.hl.chinamobile.com/PLTV/88888888/224/3221226419/index.m3u8",
   ofStr "http://[2409:8087:1a01:df::7005]/ottrrs.hl.chinamobile.com/PLTV/88888888/224/3221226419/index.m3u8",
   ofStr "http://[2409:8087:1a01:df::7005]/ottrrs.hl.chinamobile.com/PLTV/88888888/224/3221226419/index.m3u8",
   ofStr "http://[2409:8087:1a01:df::7005]:80/ottrrs.hl.chinamobile.com/PLTV/88888888/224/3221226419/index.m3u8",
   ofStr "http://[2409:8087:5e00:24::1e]:6060/000000001000/1000000006000233001/1.m3u8",
   ofStr "http://[2409:8087:1a01:df::7005]/ottrrs.hl.chinamobile.com/PLTV/88888888/224/3221226419/index.m3u8",
   ofStr "http://[2409:8087:1a01:df::7005]:80/ottrrs.hl.chinamobile.com/PLTV/88888888/224/3221226419/index.m3u8",
   ofStr "8.210.140.75:68",
   ofStr "154.12.50.54",
   ofStr "yinhe.live_hls.zte.com",
   ofStr "8.137.59.151",
   ofStr "[2409:8087:7000:20:1000::22]:6060",
   ofStr "histar.zapi.us.kg",
   ofStr "www.tfiplaytv.vip",
   ofStr "dp.sxtv.top",
   ofStr "111.230.30.193",
   ofStr "148.135.93.213:81",
   ofStr "live.goodiptv.club",
   ofStr "iptv.luas.edu.cn",
   ofStr "[2409:8087:2001:20:2800:0:df6e:eb22]:80",
   ofStr "[2409:8087:2001:20:2800:0:df6e:eb23]:80",
   ofStr "[2409:8087:2001:20:2800:0:df6e:eb1d]/ott.mobaibox.com/",
   ofStr "[2409:8087:2001:20:2800:0:df6e:eb1d]:80",
   ofStr "[2409:8087:2001:20:2800:0:df6e:eb24]",
   ofStr "2409:8087:2001:20:2800:0:df6e:eb25]:80",
   ofStr "stream1.freetv.fun",
   ofStr "chinamobile",
   ofStr "gaoma",
   ofStr "[2409:8087:2001:20:2800:0:df6e:eb27]"]

/-- ASCII lower-casing of one character. -/
def toLowerC (c : Nat) : Nat := if isUpperC c then c + 32 else c

/-- Case-insensitive substring matching — the matching mode asserted by
the specification for the blacklist filter. -/
def ciSubstr (pat s : Str) : Bool :=
  isSubstr (pat.map toLowerC) (s.map toLowerC)

/-- All URLs stored in an index pass the parser's two URL filters. -/
def ValidUrls (bl : List Str) (idx : Index) : Prop :=
  ∀ p ∈ idx, ∀ u ∈ p.2, isBlacklistedSub bl u = false ∧ hasValidIp u = true

lemma validUrls_addChannel {bl : List Str} {idx : Index} {name url : Str}
    (hinv : ValidUrls bl idx)
    (hbl : isBlacklistedSub bl url = false) (hip : hasValidIp url = true) :
    ValidUrls bl (addChannel idx name url) := by
  unfold addChannel
  split
  · intro p hp u hu
    rcases List.mem_append.mp hp with h | h
    · exact hinv p h u hu
    · simp at h
      subst h
      simp at hu
      subst hu
      exact ⟨hbl, hip⟩
  · split
    · exact hinv
    · intro p hp u hu
      rw [List.mem_map] at hp
      obtain ⟨e, he, rfl⟩ := hp
      by_cases hname : e.1 = name
      · rw [if_pos hname] at hu
        simp only at hu
        rcases List.mem_append.mp hu with h | h
        · exact hinv e he u h
        · simp at h
          subst h
          exact ⟨hbl, hip⟩
      · rw [if_neg hname] at hu
        exact hinv e he u hu

lemma isValidEntry_parts {bl : List Str} {name url : Str}
    (h : isValidEntry bl name url = true) :
    isBlacklistedSub bl url = false ∧ hasValidIp url = true := by
  unfold isValidEntry at h
  simp only [Bool.and_eq_true, Bool.not_eq_true'] at h
  exact ⟨h.1.2, h.2⟩

lemma validUrls_parseTxtLine {bl : List Str} {idx : Index} (line : Str)
    (hinv : ValidUrls bl idx) : ValidUrls bl (parseTxtLine bl idx line) := by
  unfold parseTxtLine
  split
  · exact hinv
  · split
    · exact hinv
    · rename_i n u heq
      split
      · rename_i hv
        exact validUrls_addChannel hinv (isValidEntry_parts hv).1
          (isValidEntry_parts hv).2
      · exact hinv

lemma validUrls_parseM3uEntry {bl : List Str} {idx : Index} (entry : Str)
    (hinv : ValidUrls bl idx) : ValidUrls bl (parseM3uEntry bl idx entry) := by
  unfold parseM3uEntry
  split
  · exact hinv
  · split
    · rename_i hv
      exact validUrls_addChannel hinv (isValidEntry_parts hv).1
        (isValidEntry_parts hv).2
    · exact hinv

lemma validUrls_foldl {bl : List Str} {f : Index → Str → Index}
    (hf : ∀ idx a, ValidUrls bl idx → ValidUrls bl (f idx a)) :
    ∀ (l : List Str) (idx : Index), ValidUrls bl idx →
      ValidUrls bl (l.foldl f idx) := by
  intro l
  induction l with
  | nil => intro idx h; exact h
  | cons a t ih =>
    intro idx h
    exact ih (f idx a) (hf idx a h)

/-- C8 (amended): every record emitted by either decoder has a URL that
matches no configured blacklist pattern as a case-SENSITIVE substring and
that contains a recognizable IPv4 dotted quad or bracketed IPv6 literal;
entries failing either filter are rejected before acceptance.  (The
parser's blacklist matching is plain substring and case-sensitive — the
case-insensitive regex variant lives in `ChannelManager._is_blacklisted`
and is applied later, at merge time.) -/
theorem parser_url_filters (bl : List Str) (content : Str) (st : SourceType)
    (name url : Str) (urls : List Str)
    (hmem : (name, urls) ∈ parseSourceContent bl content st)
    (hu : url ∈ urls) :
    isBlacklistedSub bl url = false ∧ hasValidIp url = true := by
  have hvalid : ValidUrls bl (parseSourceContent bl content st) := by
    cases st with
    | m3u =>
      exact validUrls_foldl (fun idx a => validUrls_parseM3uEntry a) _ _
        (by intro p hp; simp at hp)
    | txt =>
      exact validUrls_foldl (fun idx a => validUrls_parseTxtLine a) _ _
        (by intro p hp; simp at hp)
  exact hvalid (name, urls) hmem url hu

/-- Witness for C8 (amended): a concrete accepted record's URL is
unblacklisted and contains a dotted quad. -/
theorem parser_url_filters_witness :
    isBlacklistedSub url_blacklist (ofStr "http://3.3.3.3/q") = false ∧
    hasValidIp (ofStr "http://3.3.3.3/q") = true :=
  parser_url_filters url_blacklist (ofStr "NEWS7,http://3.3.3.3/q")
    SourceType.txt (ofStr "NEWS7") (ofStr "http://3.3.3.3/q")
     [ofStr "http://3.3.3.3/q"] (by decide) (by decide)

/-- C8 (counterexample): blacklist matching in the parser is NOT
case-insensitive.  The URL `HTTP://EPG.PW/STREAM/1.2.3.4` matches the
configured blacklist pattern `epg.pw/stream/` case-insensitively, yet the
TXT decoder emits it, because `_is_valid_entry` compares case-sensitively. -/
theorem parser_blacklist_not_case_insensitive :
    parseTxt url_blacklist (ofStr "CH,HTTP://EPG.PW/STREAM/1.2.3.4") =
      [(ofStr "CH", [ofStr "HTTP://EPG.PW/STREAM/1.2.3.4"])] ∧
    ofStr "epg.pw/stream/" ∈ url_blacklist ∧
    ciSubstr (ofStr "epg.pw/stream/") (ofStr "HTTP://EPG.PW/STREAM/1.2.3.4")
      = true := by
  refine ⟨by decide, by decide, by decide⟩

/-- C3 (counterexample): the TXT decoder does NOT split the tail on `#`.
The line `CCTV1,http://1.2.3.4/a#http://5.6.7.8/b` yields ONE candidate
URL — the entire tail, `'#'` (code 35) included — not two. -/
theorem txt_decoder_keeps_hash_tail :
    parseTxt url_blacklist (ofStr "CCTV1,http://1.2.3.4/a#http://5.6.7.8/b") =
      [(ofStr "CCTV1", [ofStr "http://1.2.3.4/a#http://5.6.7.8/b"])] ∧
    (35 : Nat) ∈ ofStr "http://1.2.3.4/a#http://5.6.7.8/b" := by
  refine ⟨by decide, by decide⟩

lemma splitLinesGo_no_break (s : Str) (h : ∀ c ∈ s, c ≠ 10 ∧ c ≠ 13) :
    ∀ acc : Str,
      splitLinesGo acc s =
        if acc.reverse ++ s = [] then [] else [acc.reverse ++ s] := by
  induction s with
  | nil =>
    intro acc
    rw [splitLinesGo]
    by_cases hacc : acc = []
    · subst hacc; simp
    · rw [if_neg hacc, List.append_nil,
        if_neg (by simpa using hacc)]
  | cons c t ih =>
    intro acc
    have hc := h c (List.mem_cons_self c t)
    rw [splitLinesGo.eq_def]
    simp only [hc.1, hc.2, if_false, ite_false]
    rw [ih (fun x hx => h x (List.mem_cons_of_mem c hx)) (c :: acc)]
    have h₂ : (c :: acc).reverse ++ t = acc.reverse ++ c :: t := by
      simp
    rw [h₂]

lemma splitFirst_append (sep : Nat) (name url : Str) (h : sep ∉ name) :
    splitFirst sep (name ++ sep :: url) = some (name, url) := by
  induction name with
  | nil => simp [splitFirst]
  | cons c t ih =>
    have hc : c ≠ sep := fun hcc => h (hcc ▸ List.mem_cons_self c t)
    rw [List.cons_append, splitFirst, if_neg hc,
      ih (fun hx => h (List.mem_cons_of_mem c hx))]

/-- C3 (amended): for a TXT line `name,tail`, the decoder emits exactly ONE
candidate URL: the entire (stripped) tail after the first comma, `#`
characters and all.  A `#`-delimited tail is never split into several
candidate URLs. -/
theorem txt_line_single_candidate (bl : List Str) (name url : Str)
    (hsep : (44 : Nat) ∉ name)
    (hbreak : ∀ c ∈ name ++ 44 :: url, c ≠ 10 ∧ c ≠ 13)
    (hstrip : stripStr (name ++ 44 :: url) = name ++ 44 :: url)
    (hvalid : isValidEntry bl (stripStr name) (stripStr url) = true) :
    parseTxt bl (name ++ 44 :: url) = [(stripStr name, [stripStr url])] := by
  unfold parseTxt splitLines
  rw [splitLinesGo_no_break _ hbreak [], List.reverse_nil, List.nil_append,
    if_neg (by simp), List.foldl_cons, List.foldl_nil]
  unfold parseTxtLine
  simp only [hstrip]
  rw [if_neg (by simp), splitFirst_append 44 name url hsep]
  simp only [hvalid, if_pos]
  simp [addChannel, lookupIdx]

/-- Witness for C3 (amended): a line whose tail holds two `#`-joined URLs
produces a single candidate equal to the whole tail. -/
theorem txt_line_single_candidate_witness :
    parseTxt url_blacklist
        (ofStr "CCTV5" ++ 44 :: ofStr "http://9.9.9.9/x#http://8.8.8.8/y") =
      [(stripStr (ofStr "CCTV5"),
        [stripStr (ofStr "http://9.9.9.9/x#http://8.8.8.8/y")])] :=
  txt_line_single_candidate url_blacklist (ofStr "CCTV5")
    (ofStr "http://9.9.9.9/x#http://8.8.8.8/y")
    (by decide) (by decide) (by decide) (by decide)

/-! ### The merger (`ChannelManager._merge_channels`, main.py:84-98) -/

def dedupFirstGo (seen : List Str) : List Str → List Str
  | [] => []
  | u :: t =>
    if u ∈ seen then dedupFirstGo seen t
    else u :: dedupFirstGo (u :: seen) t

/-- `list(OrderedDict.fromkeys(l))`: drop duplicates, keeping the first
occurrence of each element. -/
def dedupFirst (l : List Str) : List Str := dedupFirstGo [] l

/-- The body of the `_merge_channels` loop for one entry: append a fresh
key at the end, or extend an existing key's URL list with order-preserving
dedup (`list(OrderedDict.fromkeys(old + valid))`). -/
def updateChannels (idx : Index) (name : Str) (urls : List Str) : Index :=
  match lookupIdx idx name with
  | none => idx ++ [(name, urls)]
  | some _ =>
    idx.map (fun e => if e.1 = name then (e.1, dedupFirst (e.2 ++ urls)) else e)

/-- `_merge_channels` (main.py:84-98).  The two merge-time URL filters —
`_is_blacklisted` (a case-insensitive `re.search` over the configured
patterns) and `_has_valid_ip` — wrap Python regexes, so they are abstracted
into boolean oracles `isBl` / `hasIp`; the merge keeps a URL exactly when
`!isBl u && hasIp u`, as the list comprehension does. -/
def mergeChannels (isBl hasIp : Str → Bool) (idx : Index) (batch : Index) :
    Index :=
  batch.foldl
    (fun i e =>
      updateChannels i (cleanChannelName e.1)
        (e.2.filter (fun u => !isBl u && hasIp u)))
    idx

/-- Folding `_merge_channels` over a list of parsed per-source batches, as
`fetch_and_merge_channels` does over the futures' results. -/
def mergeAll (isBl hasIp : Str → Bool) (idx : Index) (batches : List Index) :
    Index :=
  batches.foldl (mergeChannels isBl hasIp) idx

/-- The channel index read as a mapping canonical-name → set of URLs. -/
def urlSet (idx : Index) (name : Str) : Finset Str :=
  ((lookupIdx idx name).getD []).toFinset

/-- Per-entry URL-set contributions of one batch to one canonical name. -/
def batchSets (isBl hasIp : Str → Bool) (batch : Index) (m : Str) :
    List (Finset Str) :=
  batch.map fun e =>
    if cleanChannelName e.1 = m then
      (e.2.filter (fun u => !isBl u && hasIp u)).toFinset
    else ∅

lemma mem_dedupFirstGo (a : Str) :
    ∀ (l seen : List Str), a ∈ dedupFirstGo seen l ↔ (a ∈ l ∧ a ∉ seen) := by
  intro l
  induction l with
  | nil => intro seen; simp [dedupFirstGo]
  | cons u t ih =>
    intro seen
    unfold dedupFirstGo
    by_cases hu : u ∈ seen
    · rw [if_pos hu, ih]
      constructor
      · rintro ⟨h1, h2⟩
        exact ⟨List.mem_cons_of_mem u h1, h2⟩
      · rintro ⟨h1, h2⟩
        rcases List.mem_cons.mp h1 with rfl | h1
        · exact absurd hu h2
        · exact ⟨h1, h2⟩
    · rw [if_neg hu]
      by_cases ha : a = u
      · subst ha
        simp [hu]
      · simp only [List.mem_cons, ha, false_or]
        rw [ih]
        constructor
        · rintro ⟨h1, h2⟩
          exact ⟨h1, fun hs => h2 (List.mem_cons_of_mem u hs)⟩
        · rintro ⟨h1, h2⟩
          exact ⟨h1, fun hs => by
            rcases List.mem_cons.mp hs with h | h
            · exact ha h
            · exact h2 h⟩

lemma toFinset_dedupFirst (l : List Str) :
    (dedupFirst l).toFinset = l.toFinset := by
  apply Finset.ext
  intro a
  simp only [List.mem_toFinset, dedupFirst, mem_dedupFirstGo]
  simp

lemma lookupIdx_nil (m : Str) : lookupIdx [] m = none := rfl

lemma lookupIdx_cons (e : Str × List Str) (t : Index) (m : Str) :
    lookupIdx (e :: t) m = if e.1 = m then some e.2 else lookupIdx t m := rfl

lemma lookupIdx_append_single (idx : Index) (n : Str) (urls : List Str)
    (m : Str) :
    lookupIdx (idx ++ [(n, urls)]) m =
      match lookupIdx idx m with
      | some v => some v
      | none => if n = m then some urls else none := by
  induction idx with
  | nil => rfl
  | cons e t ih =>
    rw [List.cons_append, lookupIdx_cons, lookupIdx_cons]
    by_cases h : e.1 = m
    · rw [if_pos h, if_pos h]
    · rw [if_neg h, if_neg h, ih]

lemma lookupIdx_map_update (idx : Index) (n : Str) (urls : List Str)
    (m : Str) :
    lookupIdx
        (idx.map (fun e => if e.1 = n then (e.1, dedupFirst (e.2 ++ urls))
          else e)) m =
      (lookupIdx idx m).map
        (fun v => if m = n then dedupFirst (v ++ urls) else v) := by
  induction idx with
  | nil => rfl
  | cons e t ih =>
    rw [List.map_cons, lookupIdx_cons, lookupIdx_cons]
    by_cases hen : e.1 = n
    · rw [if_pos hen]
      dsimp only
      by_cases hem : e.1 = m
      · rw [if_pos hem, if_pos hem]
        have hmn : m = n := by rw [← hem, hen]
        simp [hmn]
      · rw [if_neg hem, if_neg hem, ih]
    · rw [if_neg hen]
      by_cases hem : e.1 = m
      · rw [if_pos hem, if_pos hem]
        have hmn : ¬m = n := fun h => hen (by rw [hem, h])
        simp [hmn]
      · rw [if_neg hem, if_neg hem, ih]

lemma urlSet_updateChannels (idx : Index) (n : Str) (urls : List Str)
    (m : Str) :
    urlSet (updateChannels idx n urls) m =
      if m = n then urlSet idx m ∪ urls.toFinset else urlSet idx m := by
  unfold updateChannels
  cases h : lookupIdx idx n with
  | none =>
    unfold urlSet
    rw [lookupIdx_append_single]
    by_cases hm : m = n
    · subst hm
      rw [h]
      simp
    · rw [if_neg hm]
      cases hl : lookupIdx idx m with
      | none =>
        dsimp only
        rw [if_neg (fun hnm : n = m => hm hnm.symm)]
      | some v => rfl
  | some us =>
    unfold urlSet
    rw [lookupIdx_map_update]
    by_cases hm : m = n
    · subst hm
      rw [h]
      simp [toFinset_dedupFirst]
    · rw [if_neg hm]
      cases hl : lookupIdx idx m with
      | none => rfl
      | some v => simp [hm]

lemma foldl_union_eq_union (l : List (Finset Str)) :
    ∀ init : Finset Str,
      l.foldl (· ∪ ·) init = init ∪ l.foldl (· ∪ ·) ∅ := by
  induction l with
  | nil => intro init; simp
  | cons a t ih =>
    intro init
    simp only [List.foldl_cons]
    rw [ih (init ∪ a), ih (∅ ∪ a)]
    rw [Finset.empty_union, Finset.union_assoc]

lemma urlSet_mergeChannels (isBl hasIp : Str → Bool) (batch : Index)
    (m : Str) :
    ∀ idx : Index,
      urlSet (mergeChannels isBl hasIp idx batch) m =
        (batchSets isBl hasIp batch m).foldl (· ∪ ·) (urlSet idx m) := by
  induction batch with
  | nil => intro idx; rfl
  | cons e bs ih =>
    intro idx
    show urlSet (mergeChannels isBl hasIp
      (updateChannels idx (cleanChannelName e.1)
        (e.2.filter (fun u => !isBl u && hasIp u))) bs) m = _
    rw [ih, urlSet_updateChannels]
    simp only [batchSets, List.map_cons, List.foldl_cons]
    by_cases hm : m = cleanChannelName e.1
    · rw [if_pos hm, if_pos hm.symm]
    · rw [if_neg hm, if_neg (fun h => hm h.symm), Finset.union_empty]

lemma urlSet_mergeAll (isBl hasIp : Str → Bool) (batches : List Index)
    (m : Str) :
    ∀ idx : Index,
      urlSet (mergeAll isBl hasIp idx batches) m =
        (batches.map
          (fun b => (batchSets isBl hasIp b m).foldl (· ∪ ·) ∅)).foldl
          (· ∪ ·) (urlSet idx m) := by
  induction batches with
  | nil => intro idx; rfl
  | cons b bs ih =>
    intro idx
    show urlSet (mergeAll isBl hasIp (mergeChannels isBl hasIp idx b) bs) m = _
    rw [ih, urlSet_mergeChannels]
    simp only [List.map_cons, List.foldl_cons]
    rw [foldl_union_eq_union _ (urlSet idx m)]

lemma foldl_union_perm {l₁ l₂ : List (Finset Str)} (h : l₁.Perm l₂) :
    ∀ init : Finset Str, l₁.foldl (· ∪ ·) init = l₂.foldl (· ∪ ·) init := by
  induction h with
  | nil => intro init; rfl
  | cons a _ ih =>
    intro init
    simp only [List.foldl_cons]
    exact ih (init ∪ a)
  | swap a b l =>
    intro init
    simp only [List.foldl_cons]
    rw [Finset.union_right_comm]
  | trans _ _ ih₁ ih₂ =>
    intro init
    rw [ih₁ init, ih₂ init]

/-- C6: merging parsed per-source batches is commutative and associative
when the index is read as a mapping canonical-name → set of URLs: merging
any permutation of the batch list yields the same mapping. -/
theorem mergeAll_perm_invariant (isBl hasIp : Str → Bool)
    (bs₁ bs₂ : List Index) (hperm : bs₁.Perm bs₂) (name : Str) :
    urlSet (mergeAll isBl hasIp [] bs₁) name =
      urlSet (mergeAll isBl hasIp [] bs₂) name := by
  rw [urlSet_mergeAll, urlSet_mergeAll]
  exact foldl_union_perm (hperm.map _) _

/-- Witness for C6: two concrete single-channel batches merged in both
orders give the same URL set for the canonical name "CCTV1". -/
theorem mergeAll_perm_invariant_witness :
    urlSet
        (mergeAll (fun _ => false) (fun _ => true) []
          [[(ofStr "cctv1", [ofStr "http://a/1.2.3.4"])],
           [(ofStr "CCTV1", [ofStr "http://b/1.2.3.4"])]])
        (ofStr "CCTV1") =
      urlSet
        (mergeAll (fun _ => false) (fun _ => true) []
          [[(ofStr "CCTV1", [ofStr "http://b/1.2.3.4"])],
           [(ofStr "cctv1", [ofStr "http://a/1.2.3.4"])]])
        (ofStr "CCTV1") :=
  mergeAll_perm_invariant (fun _ => false) (fun _ => true) _ _
    (List.Perm.swap _ _ _) (ofStr "CCTV1")

/-- `_process_source` (main.py:64-72) as seen by the merger: a source
whose fetch or parse raised returns an empty `OrderedDict` (modelled by
`none`), contributing nothing. -/
def processSourceResult (r : Option Index) : Index := r.getD []

/-- `fetch_and_merge_channels` (main.py:53-62): fold the merge over every
source's result; failed sources yield empty batches (and a failure while
collecting a future's result likewise skips only that source's merge). -/
def fetchAndMergeChannels (isBl hasIp : Str → Bool)
    (results : List (Option Index)) : Index :=
  results.foldl
    (fun idx r => mergeChannels isBl hasIp idx (processSourceResult r)) []

/-- C9: a source whose fetch or parse raises contributes exactly zero
records and the run continues: the final merged index is literally the
index obtained by merging the successful sources alone. -/
theorem failed_sources_contribute_nothing (isBl hasIp : Str → Bool)
    (results : List (Option Index)) :
    fetchAndMergeChannels isBl hasIp results =
      mergeAll isBl hasIp [] (results.filterMap id) := by
  suffices h : ∀ (rs : List (Option Index)) (idx : Index),
      rs.foldl (fun i r => mergeChannels isBl hasIp i (processSourceResult r))
        idx = mergeAll isBl hasIp idx (rs.filterMap id) by
    exact h results []
  intro rs
  induction rs with
  | nil => intro idx; rfl
  | cons r rest ih =>
    intro idx
    cases r with
    | none =>
      simp only [List.foldl_cons, List.filterMap_cons]
      exact ih idx
    | some b =>
      simp only [List.foldl_cons, List.filterMap_cons]
      exact ih (mergeChannels isBl hasIp idx b)

/-! ### Latency sorting (`sort_channels_by_speed` / `_sort_by_speed`) -/

/-- The per-URL probe results `[(url, latency(url)) for url in urls]`,
in submission order, as collected by `sort_channels_by_speed` (main.py:
122-130) and by `zip(urls, executor.map(...))` in `_sort_by_speed`
(main.py:218-222).  The probe is an oracle `lat`; `⊤` is `float('inf')`. -/
def probePairs (lat : Str → WithTop ℚ) (urls : List Str) :
    List (Str × WithTop ℚ) :=
  urls.map (fun u => (u, lat u))

/-- `sorted(results, key=lambda x: x[1])`: CPython's sort is stable;
`List.insertionSort` with the non-strict key comparison has the same
specification (stable, ascending). -/
def sortPairs (l : List (Str × WithTop ℚ)) : List (Str × WithTop ℚ) :=
  List.insertionSort (fun p q => p.2 ≤ q.2) l

/-- The channel body of `sort_channels_by_speed` (main.py:132-135) and
`_sort_by_speed` (main.py:218-222): sort the probed pairs ascending by
latency, keep the URLs whose latency is not `inf`. -/
def sortUrlsBySpeed (lat : Str → WithTop ℚ) (urls : List Str) : List Str :=
  ((sortPairs (probePairs lat urls)).filter (fun p => !decide (p.2 = ⊤))).map
    (fun p => p.1)

/-- `sort_channels_by_speed` (main.py:114-136) over the whole merged
index (every channel, template-matched or not). -/
def sortChannelsBySpeed (lat : Str → WithTop ℚ) (allCh : Index) : Index :=
  allCh.map (fun e => (e.1, sortUrlsBySpeed lat e.2))

lemma mem_sortPairs {x : Str × WithTop ℚ} {l : List (Str × WithTop ℚ)} :
    x ∈ sortPairs l ↔ x ∈ l :=
  (List.perm_insertionSort _ l).mem_iff

lemma snd_of_mem_probePairs {lat : Str → WithTop ℚ} {urls : List Str}
    {x : Str × WithTop ℚ} (h : x ∈ probePairs lat urls) : x.2 = lat x.1 := by
  unfold probePairs at h
  rw [List.mem_map] at h
  obtain ⟨u, _, rfl⟩ := h
  rfl

lemma fst_mem_of_mem_probePairs {lat : Str → WithTop ℚ} {urls : List Str}
    {x : Str × WithTop ℚ} (h : x ∈ probePairs lat urls) : x.1 ∈ urls := by
  unfold probePairs at h
  rw [List.mem_map] at h
  obtain ⟨u, hu, rfl⟩ := h
  exact hu

lemma sorted_sortPairs (l : List (Str × WithTop ℚ)) :
    (sortPairs l).Pairwise (fun p q => p.2 ≤ q.2) :=
  @List.sorted_insertionSort (Str × WithTop ℚ) (fun p q => p.2 ≤ q.2) _
    ⟨fun a b => le_total a.2 b.2⟩ ⟨fun _ _ _ h₁ h₂ => le_trans h₁ h₂⟩ l

lemma filter_orderedInsert_key (q : WithTop ℚ) (a : Str × WithTop ℚ) :
    ∀ l : List (Str × WithTop ℚ),
      (List.orderedInsert (fun p r => p.2 ≤ r.2) a l).filter
          (fun x => decide (x.2 = q)) =
        if a.2 = q then a :: l.filter (fun x => decide (x.2 = q))
        else l.filter (fun x => decide (x.2 = q)) := by
  intro l
  induction l with
  | nil =>
    by_cases ha : a.2 = q
    · simp [List.orderedInsert, ha]
    · simp [List.orderedInsert, ha]
  | cons b t ih =>
    rw [List.orderedInsert]
    by_cases hr : a.2 ≤ b.2
    · rw [if_pos hr]
      by_cases ha : a.2 = q
      · simp [List.filter_cons, ha]
      · simp [List.filter_cons, ha]
    · rw [if_neg hr]
      by_cases ha : a.2 = q
      · have hb : ¬b.2 = q := fun hbq => hr (le_of_eq (by rw [ha, hbq]))
        simp [List.filter_cons, ha, hb, ih]
      · simp only [List.filter_cons, decide_eq_true_eq, ih]
        by_cases hb : b.2 = q
        · simp [ha, hb]
        · simp [ha, hb]

lemma filter_key_sortPairs (q : WithTop ℚ) :
    ∀ l : List (Str × WithTop ℚ),
      (sortPairs l).filter (fun x => decide (x.2 = q)) =
        l.filter (fun x => decide (x.2 = q)) := by
  intro l
  induction l with
  | nil => rfl
  | cons a t ih =>
    show (List.orderedInsert _ a (sortPairs t)).filter _ = _
    rw [filter_orderedInsert_key q a (sortPairs t), ih]
    by_cases ha : a.2 = q
    · simp [List.filter_cons, ha]
    · simp [List.filter_cons, ha]

lemma mem_sortUrlsBySpeed {lat : Str → WithTop ℚ} {urls : List Str} {u : Str}
    (h : u ∈ sortUrlsBySpeed lat urls) : u ∈ urls ∧ lat u ≠ ⊤ := by
  unfold sortUrlsBySpeed at h
  rw [List.mem_map] at h
  obtain ⟨x, hx, rfl⟩ := h
  rw [List.mem_filter] at hx
  obtain ⟨hx₁, hx₂⟩ := hx
  rw [mem_sortPairs] at hx₁
  have hsnd := snd_of_mem_probePairs hx₁
  refine ⟨fst_mem_of_mem_probePairs hx₁, ?_⟩
  simp only [Bool.not_eq_true', decide_eq_false_iff_not] at hx₂
  rw [← hsnd]
  exact hx₂

/-- C5: for every channel and every latency assignment, the ranked list is
sorted ascending by latency (ties in first-seen order: filtering the input
and the output by any finite latency value gives identical lists — the
stability property), `inf` candidates are excluded entirely, and a channel
all of whose candidates are unreachable ranks to the empty list. -/
theorem sortUrlsBySpeed_spec (lat : Str → WithTop ℚ) (urls : List Str) :
    (sortUrlsBySpeed lat urls).Pairwise (fun u v => lat u ≤ lat v) ∧
    (∀ u ∈ sortUrlsBySpeed lat urls, lat u ≠ ⊤) ∧
    (∀ q : ℚ,
      (sortUrlsBySpeed lat urls).filter
          (fun u => decide (lat u = (q : WithTop ℚ))) =
        urls.filter (fun u => decide (lat u = (q : WithTop ℚ)))) ∧
    ((∀ u ∈ urls, lat u = ⊤) → sortUrlsBySpeed lat urls = []) := by
  refine ⟨?_, ?_, ?_, ?_⟩
  · unfold sortUrlsBySpeed
    rw [List.pairwise_map]
    have hs := (sorted_sortPairs (probePairs lat urls)).filter
      (fun p => !decide (p.2 = ⊤))
    refine hs.imp_of_mem ?_
    intro a b ha hb hab
    have ha' := (List.mem_filter.mp ha).1
    have hb' := (List.mem_filter.mp hb).1
    rw [mem_sortPairs] at ha' hb'
    rw [← snd_of_mem_probePairs ha', ← snd_of_mem_probePairs hb']
    exact hab
  · intro u hu
    exact (mem_sortUrlsBySpeed hu).2
  · intro q
    unfold sortUrlsBySpeed
    rw [List.filter_map]
    have hcong : ∀ x ∈ sortPairs (probePairs lat urls),
        ((fun u => decide (lat u = (q : WithTop ℚ))) ∘ (fun p : Str × WithTop ℚ => p.1)) x
          = decide (x.2 = (q : WithTop ℚ)) := by
      intro x hx
      rw [mem_sortPairs] at hx
      have := snd_of_mem_probePairs hx
      simp only [Function.comp_apply, this]
    rw [List.filter_filter]
    have hcong₂ : ∀ x ∈ sortPairs (probePairs lat urls),
        (((fun u => decide (lat u = (q : WithTop ℚ))) ∘
            (fun p : Str × WithTop ℚ => p.1)) x && !decide (x.2 = ⊤))
          = decide (x.2 = (q : WithTop ℚ)) := by
      intro x hx
      rw [hcong x hx]
      by_cases hxq : x.2 = (q : WithTop ℚ)
      · have : ¬x.2 = ⊤ := by rw [hxq]; exact WithTop.coe_ne_top
        simp [hxq, this]
      · simp [hxq]
    rw [List.filter_congr hcong₂, filter_key_sortPairs]
    unfold probePairs
    rw [List.filter_map]
    have : ((fun x : Str × WithTop ℚ => decide (x.2 = (q : WithTop ℚ))) ∘
        (fun u => (u, lat u))) = (fun u => decide (lat u = (q : WithTop ℚ))) := by
      funext u
      rfl
    rw [this, List.map_map]
    have : ((fun p : Str × WithTop ℚ => p.1) ∘ (fun u => (u, lat u))) = id := by
      funext u
      rfl
    rw [this, List.map_id]
  · intro hall
    unfold sortUrlsBySpeed
    rw [List.filter_eq_nil_iff.mpr, List.map_nil]
    intro x hx
    rw [mem_sortPairs] at hx
    have h₂ := snd_of_mem_probePairs hx
    have h₁ := fst_mem_of_mem_probePairs hx
    simp only [Bool.not_eq_true', decide_eq_false_iff_not, Decidable.not_not]
    rw [h₂]
    exact hall x.1 h₁

/-- Witness for C5, on the specification's own example: candidates
probed at {A: 50, B: ∞, C: 10, C2: 10, first-seen in that order} rank to
[C, C2, A] — B excluded, the C/C2 tie kept in first-seen order. -/
theorem sortUrlsBySpeed_spec_witness :
    (∀ u ∈ sortUrlsBySpeed
        (fun u => if u = ofStr "A" then ((50 : ℚ) : WithTop ℚ)
          else if u = ofStr "B" then ⊤ else ((10 : ℚ) : WithTop ℚ))
        [ofStr "A", ofStr "B", ofStr "C", ofStr "C2"],
      (fun u => if u = ofStr "A" then ((50 : ℚ) : WithTop ℚ)
          else if u = ofStr "B" then ⊤ else ((10 : ℚ) : WithTop ℚ)) u ≠ ⊤) ∧
    sortUrlsBySpeed
        (fun u => if u = ofStr "A" then ((50 : ℚ) : WithTop ℚ)
          else if u = ofStr "B" then ⊤ else ((10 : ℚ) : WithTop ℚ))
        [ofStr "A", ofStr "B", ofStr "C", ofStr "C2"] =
      [ofStr "C", ofStr "C2", ofStr "A"] :=
  ⟨(sortUrlsBySpeed_spec _ _).2.1, by decide⟩

/-! ### The renderer (`generate_output_files` channel section) -/

/-- One rendered channel entry (the paired `#EXTINF`/URL lines and the
`name,url` flat line carry the category, cleaned name, 1-based sequence
id and URL). -/
structure Entry where
  category : Str
  name : Str
  seq : Nat
  url : Str
deriving DecidableEq

/-- `enumerate(sorted_urls, 1)`. -/
def enumFrom (i : Nat) : List Str → List (Nat × Str)
  | [] => []
  | u :: t => (i, u) :: enumFrom (i + 1) t

/-- The URL loop of `_process_channel_chunk` (main.py:212-216): skip a URL
already in `written_urls`, otherwise emit one entry and mark the URL
written.  The 1-based index advances even over skipped URLs. -/
def writeUrls (cat nm : Str) : List (Nat × Str) → List Str →
    List Entry × List Str
  | [], written => ([], written)
  | (i, u) :: rest, written =>
    if u ∈ written then writeUrls cat nm rest written
    else
      ((⟨cat, nm, i, u⟩ : Entry) :: (writeUrls cat nm rest (u :: written)).1,
        (writeUrls cat nm rest (u :: written)).2)

/-- The per-channel body of `_process_channel_chunk` (main.py:204-216):
clean the template name, look it up in `sorted_channels`, dedup, re-sort
by a fresh round of probes (`_sort_by_speed`), then write. -/
def processChannelR (lat : Str → WithTop ℚ) (cat : Str) (sc : Index)
    (written : List Str) (chName : Str) : List Entry × List Str :=
  writeUrls cat (cleanChannelName chName)
    (enumFrom 1 (sortUrlsBySpeed lat
      (dedupFirst ((lookupIdx sc (cleanChannelName chName)).getD []))))
    written

/-- The channel loop of `_process_channel_chunk`: `written_urls` starts
empty per chunk and is threaded through the chunk's channels. -/
def goChunk (lat : Str → WithTop ℚ) (cat : Str) (sc : Index) :
    List Str → List Str → List Entry
  | [], _ => []
  | n :: ns, written =>
    (processChannelR lat cat sc written n).1 ++
      goChunk lat cat sc ns (processChannelR lat cat sc written n).2

/-- `channel_names[i:i+100]` slicing (main.py:191): cut a list into
consecutive chunks of 100. -/
def chunkGo : Nat → List Str → List Str → List (List Str)
  | _, acc, [] => if acc = [] then [] else [acc.reverse]
  | 0, acc, c :: t => acc.reverse :: chunkGo 99 [c] t
  | fuel + 1, acc, c :: t => chunkGo fuel (c :: acc) t

def chunks100 (l : List Str) : List (List Str) := chunkGo 100 [] l

/-- One category of `_write_channel_data` (main.py:188-192): the chunk
loop, each chunk processed with a fresh `written_urls` set. -/
def renderCategory (lat : Str → WithTop ℚ) (cat : Str) (names : List Str)
    (sc : Index) : List Entry :=
  (chunks100 names).flatMap (fun ck => goChunk lat cat sc ck [])

/-- `_write_channel_data` (main.py:183-192): template categories in
declaration order, channels of each category in declared order, over the
speed-sorted index. -/
def writeChannelData (lat : Str → WithTop ℚ)
    (tmpl : List (Str × List Str)) (allCh : Index) : List Entry :=
  tmpl.flatMap
    (fun e => renderCategory lat e.1 e.2 (sortChannelsBySpeed lat allCh))

/-- C1 (counterexample): the write-once set does NOT span the whole render
pass — `written_urls` is re-created for every chunk, and a chunk never
spans two categories.  A URL that is a candidate of channels in two
different template categories is emitted twice. -/
theorem url_written_twice_across_categories :
    ((writeChannelData (fun _ => ((10 : ℚ) : WithTop ℚ))
          [(ofStr "News", [ofStr "CCTV1"]), (ofStr "Sports", [ofStr "CCTV2"])]
          [(ofStr "CCTV1", [ofStr "http://1.2.3.4/live"]),
           (ofStr "CCTV2", [ofStr "http://1.2.3.4/live"])]).map
        Entry.url).count (ofStr "http://1.2.3.4/live") = 2 := by
  decide

lemma writeUrls_spec (cat nm : Str) (pairs : List (Nat × Str)) :
    ∀ written : List Str,
      ((writeUrls cat nm pairs written).1.map Entry.url).Nodup ∧
      (∀ e ∈ (writeUrls cat nm pairs written).1,
        e.url ∉ written ∧ e.url ∈ (writeUrls cat nm pairs written).2) ∧
      (∀ x ∈ written, x ∈ (writeUrls cat nm pairs written).2) := by
  induction pairs with
  | nil =>
    intro written
    refine ⟨List.nodup_nil, ?_, ?_⟩
    · intro e he
      simp [writeUrls] at he
    · intro x hx
      exact hx
  | cons p rest ih =>
    intro written
    obtain ⟨i, u⟩ := p
    rw [writeUrls]
    by_cases hu : u ∈ written
    · rw [if_pos hu]
      exact ih written
    · rw [if_neg hu]
      obtain ⟨ih₁, ih₂, ih₃⟩ := ih (u :: written)
      refine ⟨?_, ?_, ?_⟩
      · rw [List.map_cons]
        refine List.nodup_cons.mpr ⟨?_, ih₁⟩
        intro hmem
        rw [List.mem_map] at hmem
        obtain ⟨e, he, heq⟩ := hmem
        exact (ih₂ e he).1 (heq ▸ List.mem_cons_self u written)
      · intro e he
        rcases List.mem_cons.mp he with rfl | he
        · exact ⟨hu, ih₃ u (List.mem_cons_self u written)⟩
        · exact ⟨fun hw => (ih₂ e he).1 (List.mem_cons_of_mem u hw),
            (ih₂ e he).2⟩
      · intro x hx
        exact ih₃ x (List.mem_cons_of_mem u hx)

lemma goChunk_spec (lat : Str → WithTop ℚ) (cat : Str) (sc : Index)
    (ns : List Str) :
    ∀ written : List Str,
      ((goChunk lat cat sc ns written).map Entry.url).Nodup ∧
      (∀ e ∈ goChunk lat cat sc ns written, e.url ∉ written) := by
  induction ns with
  | nil =>
    intro written
    refine ⟨List.nodup_nil, ?_⟩
    intro e he
    simp [goChunk] at he
  | cons n ns ih =>
    intro written
    rw [goChunk]
    obtain ⟨w₁, w₂, w₃⟩ := writeUrls_spec cat (cleanChannelName n)
      (enumFrom 1 (sortUrlsBySpeed lat
        (dedupFirst ((lookupIdx sc (cleanChannelName n)).getD [])))) written
    obtain ⟨ih₁, ih₂⟩ := ih (processChannelR lat cat sc written n).2
    refine ⟨?_, ?_⟩
    · rw [List.map_append]
      rw [List.nodup_append]
      refine ⟨w₁, ih₁, ?_⟩
      intro x hx hy
      rw [List.mem_map] at hx hy
      obtain ⟨e, he, rfl⟩ := hx
      obtain ⟨e', he', heq⟩ := hy
      exact ih₂ e' he' (heq ▸ (w₂ e he).2)
    · intro e he
      rcases List.mem_append.mp he with he | he
      · exact (w₂ e he).1
      · intro hw
        exact ih₂ e he (w₃ e.url hw)

/-- C1 (amended): the write-once set is scoped to ONE chunk (at most 100
template channels of a single category): within a chunk every URL is
emitted at most once, but the set does not span chunks or categories (see
the counterexample). -/
theorem chunk_urls_written_once (lat : Str → WithTop ℚ) (cat : Str)
    (sc : Index) (ns : List Str) :
    ((goChunk lat cat sc ns []).map Entry.url).Nodup :=
  (goChunk_spec lat cat sc ns []).1

/-! ### Probe accounting (claim C4) -/

/-- The URLs passed to `_check_response_time` during
`sort_channels_by_speed` (main.py:119-130): every URL of every channel of
the merged index, template-matched or not, one future per URL with no
cross-channel cache. -/
def sortPhaseProbes (allCh : Index) : List Str :=
  allCh.flatMap (fun e => e.2)

/-- The URLs passed to `_check_response_time` by `_sort_by_speed` for one
template channel during rendering (main.py:206-210, 218-222): the deduped
speed-sorted candidate list is probed AGAIN. -/
def renderChannelProbes (sc : Index) (chName : Str) : List Str :=
  dedupFirst ((lookupIdx sc (cleanChannelName chName)).getD [])

/-- All render-phase probe calls, following the category → chunk →
channel loops of `_write_channel_data` / `_process_channel_chunk`. -/
def renderProbes (tmpl : List (Str × List Str)) (sc : Index) : List Str :=
  tmpl.flatMap
    (fun e => (chunks100 e.2).flatMap
      (fun ck => ck.flatMap (renderChannelProbes sc)))

/-- Every URL handed to `_check_response_time` over a full run
(`sort_channels_by_speed` first, then the render pass). -/
def probeCalls (lat : Str → WithTop ℚ) (tmpl : List (Str × List Str))
    (allCh : Index) : List Str :=
  sortPhaseProbes allCh ++ renderProbes tmpl (sortChannelsBySpeed lat allCh)

/-- C4 (counterexample): probing is neither deduplicated nor restricted to
template-matched channels.  With the template wanting only CCTV1, CCTV1's
URL is probed twice (once per phase, no cache) and the URL of the
unmatched channel OTHER is probed as well. -/
theorem url_probed_twice_and_unmatched_probed :
    (probeCalls (fun _ => ((10 : ℚ) : WithTop ℚ))
        [(ofStr "News", [ofStr "CCTV1"])]
        [(ofStr "CCTV1", [ofStr "http://5.5.5.5/a"]),
         (ofStr "OTHER", [ofStr "http://6.6.6.6/b"])]).count
      (ofStr "http://5.5.5.5/a") = 2 ∧
    ofStr "http://6.6.6.6/b" ∈
      probeCalls (fun _ => ((10 : ℚ) : WithTop ℚ))
        [(ofStr "News", [ofStr "CCTV1"])]
        [(ofStr "CCTV1", [ofStr "http://5.5.5.5/a"]),
         (ofStr "OTHER", [ofStr "http://6.6.6.6/b"])] := by
  refine ⟨by decide, by decide⟩

lemma lookupIdx_map_value (f : List Str → List Str) (idx : Index) (m : Str) :
    lookupIdx (idx.map (fun e => (e.1, f e.2))) m =
      (lookupIdx idx m).map f := by
  induction idx with
  | nil => rfl
  | cons e t ih =>
    rw [List.map_cons, lookupIdx_cons, lookupIdx_cons]
    by_cases h : e.1 = m
    · rw [if_pos h, if_pos h]
      rfl
    · rw [if_neg h, if_neg h, ih]

lemma mem_of_lookupIdx_eq_some {idx : Index} {m : Str} {v : List Str}
    (h : lookupIdx idx m = some v) : (m, v) ∈ idx := by
  induction idx with
  | nil => simp [lookupIdx] at h
  | cons e t ih =>
    rw [lookupIdx_cons] at h
    by_cases he : e.1 = m
    · rw [if_pos he] at h
      have : v = e.2 := by
        injection h with h'
        exact h'.symm
      subst this
      have : e = (m, e.2) := by
        rw [← he]
      rw [← this]
      exact List.mem_cons_self e t
    · rw [if_neg he] at h
      exact List.mem_cons_of_mem e (ih h)

lemma flatten_chunkGo :
    ∀ (l acc : List Str) (fuel : Nat),
      (chunkGo fuel acc l).flatten = acc.reverse ++ l := by
  intro l
  induction l with
  | nil =>
    intro acc fuel
    rw [chunkGo]
    by_cases h : acc = []
    · subst h; simp
    · rw [if_neg h]
      simp
  | cons c t ih =>
    intro acc fuel
    cases fuel with
    | zero =>
      rw [chunkGo]
      rw [List.flatten_cons, ih [c] 99]
      simp
    | succ k =>
      rw [chunkGo, ih (c :: acc) k]
      simp

/-- C4 (amended): probe work is NOT deduplicated and NOT restricted to the
template.  (a) Every URL of every channel of the merged index is probed at
least once — channels absent from the template included; (b) every URL
that survives the first sort phase for a template-matched channel is
probed at least twice over the run (once per phase; results are never
cached across the phases). -/
theorem probe_not_cached_nor_template_restricted
    (lat : Str → WithTop ℚ) (tmpl : List (Str × List Str)) (allCh : Index) :
    (∀ (u : Str) (p : Str × List Str), p ∈ allCh → u ∈ p.2 →
      u ∈ probeCalls lat tmpl allCh) ∧
    (∀ (cat cn u : Str) (names : List Str),
      (cat, names) ∈ tmpl → cn ∈ names →
      u ∈ (lookupIdx (sortChannelsBySpeed lat allCh)
        (cleanChannelName cn)).getD [] →
      2 ≤ (probeCalls lat tmpl allCh).count u) := by
  constructor
  · intro u p hp hu
    unfold probeCalls
    refine List.mem_append_left _ ?_
    unfold sortPhaseProbes
    rw [List.mem_flatMap]
    exact ⟨p, hp, hu⟩
  · intro cat cn u names hcat hcn hu
    have hlk : ∃ us, lookupIdx allCh (cleanChannelName cn) = some us ∧
        u ∈ sortUrlsBySpeed lat us := by
      unfold sortChannelsBySpeed at hu
      rw [lookupIdx_map_value] at hu
      cases h : lookupIdx allCh (cleanChannelName cn) with
      | none => rw [h] at hu; simp at hu
      | some us =>
        rw [h] at hu
        exact ⟨us, rfl, by simpa using hu⟩
    obtain ⟨us, hus, humem⟩ := hlk
    have hu_us : u ∈ us := (mem_sortUrlsBySpeed humem).1
    have h₁ : u ∈ sortPhaseProbes allCh := by
      unfold sortPhaseProbes
      rw [List.mem_flatMap]
      exact ⟨(cleanChannelName cn, us), mem_of_lookupIdx_eq_some hus, hu_us⟩
    have h₂ : u ∈ renderProbes tmpl (sortChannelsBySpeed lat allCh) := by
      unfold renderProbes
      rw [List.mem_flatMap]
      refine ⟨(cat, names), hcat, ?_⟩
      rw [List.mem_flatMap]
      have hcn' : cn ∈ (chunks100 names).flatten := by
        rw [chunks100, flatten_chunkGo]
        simpa using hcn
      rw [List.mem_flatten] at hcn'
      obtain ⟨ck, hck, hcn''⟩ := hcn'
      refine ⟨ck, hck, ?_⟩
      rw [List.mem_flatMap]
      refine ⟨cn, hcn'', ?_⟩
      unfold renderChannelProbes
      rw [dedupFirst, mem_dedupFirstGo]
      exact ⟨hu, List.not_mem_nil u⟩
    unfold probeCalls
    rw [List.count_append]
    have c₁ : 0 < (sortPhaseProbes allCh).count u :=
      List.count_pos_iff.mpr h₁
    have c₂ : 0 < (renderProbes tmpl (sortChannelsBySpeed lat allCh)).count u
      := List.count_pos_iff.mpr h₂
    omega

/-- Witness for C4 (amended): a matched channel's surviving URL is counted
at least twice among the probe calls of a concrete run. -/
theorem probe_not_cached_witness :
    2 ≤ (probeCalls (fun _ => ((10 : ℚ) : WithTop ℚ))
        [(ofStr "Kids", [ofStr "CCTV14"])]
        [(ofStr "CCTV14", [ofStr "http://7.7.7.7/s"])]).count
      (ofStr "http://7.7.7.7/s") :=
  (probe_not_cached_nor_template_restricted _ _ _).2
    (ofStr "Kids") (ofStr "CCTV14") (ofStr "http://7.7.7.7/s")
    [ofStr "CCTV14"] (by decide) (by decide) (by decide)

/-! ### Template order (claim C10) -/

/-- The cleaned channel names a template declares inside one category. -/
def chanNames (tmpl : List (Str × List Str)) (cat : Str) : List Str :=
  ((lookupIdx tmpl cat).getD []).map cleanChannelName

/-- Template-position order on rendered entries: either the first entry's
category strictly precedes the second's in template declaration order, or
both lie in the same category and the first's channel name does not come
after the second's in that category's declared channel order. -/
def posLe (tmpl : List (Str × List Str)) (e₁ e₂ : Entry) : Prop :=
  (tmpl.map Prod.fst).indexOf e₁.category <
      (tmpl.map Prod.fst).indexOf e₂.category ∨
    (e₁.category = e₂.category ∧
      (chanNames tmpl e₁.category).indexOf e₁.name ≤
        (chanNames tmpl e₁.category).indexOf e₂.name)

lemma indexOf_append_of_mem {a : Str} {L₁ : List Str} (h : a ∈ L₁)
    (L₂ : List Str) : (L₁ ++ L₂).indexOf a = L₁.indexOf a := by
  induction L₁ with
  | nil => simp at h
  | cons b t ih =>
    rw [List.cons_append]
    by_cases hb : b = a
    · have hbeq : (b == a) = true := by simp [hb]
      simp [List.indexOf_cons, hbeq]
    · have hbeq : (b == a) = false := by simp [hb]
      rcases List.mem_cons.mp h with rfl | h'
      · exact absurd rfl hb
      · simp only [List.indexOf_cons, hbeq, cond_false]
        rw [ih h']

lemma indexOf_append_of_not_mem {a : Str} {L₁ : List Str} (h : a ∉ L₁)
    (L₂ : List Str) :
    (L₁ ++ L₂).indexOf a = L₁.length + L₂.indexOf a := by
  induction L₁ with
  | nil => simp
  | cons b t ih =>
    have hb : ¬b = a := fun hba => h (hba ▸ List.mem_cons_self b t)
    have hbeq : (b == a) = false := by simp [hb]
    rw [List.cons_append]
    simp only [List.indexOf_cons, hbeq, cond_false, List.length_cons]
    rw [ih (fun ht => h (List.mem_cons_of_mem b ht))]
    omega

lemma indexOf_lt_length_of_mem {a : Str} {l : List Str} (h : a ∈ l) :
    l.indexOf a < l.length := by
  induction l with
  | nil => simp at h
  | cons b t ih =>
    by_cases hb : b = a
    · have hbeq : (b == a) = true := by simp [hb]
      simp [List.indexOf_cons, hbeq]
    · have hbeq : (b == a) = false := by simp [hb]
      rcases List.mem_cons.mp h with rfl | h'
      · exact absurd rfl hb
      · simp only [List.indexOf_cons, hbeq, cond_false, List.length_cons]
        exact Nat.succ_lt_succ (ih h')

lemma indexOf_lt_of_append_nodup {a b : Str} {L₁ L₂ : List Str}
    (hnd : (L₁ ++ L₂).Nodup) (ha : a ∈ L₁) (hb : b ∈ L₂) :
    (L₁ ++ L₂).indexOf a < (L₁ ++ L₂).indexOf b := by
  have hbn : b ∉ L₁ := fun hbl =>
    List.disjoint_of_nodup_append hnd hbl hb
  rw [indexOf_append_of_mem ha, indexOf_append_of_not_mem hbn]
  have hlt : L₁.indexOf a < L₁.length := indexOf_lt_length_of_mem ha
  omega

lemma pairwise_of_all {R : Entry → Entry → Prop} :
    ∀ {l : List Entry}, (∀ a ∈ l, ∀ b ∈ l, R a b) → l.Pairwise R := by
  intro l
  induction l with
  | nil => intro _; exact List.Pairwise.nil
  | cons a t ih =>
    intro h
    refine List.Pairwise.cons ?_ (ih ?_)
    · intro b hb
      exact h a (List.mem_cons_self a t) b (List.mem_cons_of_mem a hb)
    · intro x hx y hy
      exact h x (List.mem_cons_of_mem a hx) y (List.mem_cons_of_mem a hy)

lemma mem_writeUrls (cat nm : Str) (pairs : List (Nat × Str)) :
    ∀ (written : List Str) (e : Entry),
      e ∈ (writeUrls cat nm pairs written).1 →
      e.category = cat ∧ e.name = nm := by
  induction pairs with
  | nil =>
    intro written e he
    simp [writeUrls] at he
  | cons p rest ih =>
    intro written e he
    obtain ⟨i, u⟩ := p
    rw [writeUrls] at he
    by_cases hu : u ∈ written
    · rw [if_pos hu] at he
      exact ih written e he
    · rw [if_neg hu] at he
      rcases List.mem_cons.mp he with rfl | he'
      · exact ⟨rfl, rfl⟩
      · exact ih (u :: written) e he'

lemma mem_goChunk (lat : Str → WithTop ℚ) (cat : Str) (sc : Index)
    (ns : List Str) :
    ∀ (written : List Str) (e : Entry), e ∈ goChunk lat cat sc ns written →
      e.category = cat ∧ e.name ∈ ns.map cleanChannelName := by
  induction ns with
  | nil =>
    intro written e he
    simp [goChunk] at he
  | cons n ns ih =>
    intro written e he
    rw [goChunk] at he
    rcases List.mem_append.mp he with he' | he'
    · have := mem_writeUrls cat (cleanChannelName n) _ written e he'
      exact ⟨this.1, this.2 ▸ List.mem_map_of_mem cleanChannelName
        (List.mem_cons_self n ns)⟩
    · obtain ⟨h₁, h₂⟩ := ih _ e he'
      refine ⟨h₁, ?_⟩
      rw [List.map_cons]
      exact List.mem_cons_of_mem _ h₂

lemma mem_flatMap_chunks (lat : Str → WithTop ℚ) (cat : Str) (sc : Index)
    (rest acc : List Str) (fuel : Nat) (e : Entry)
    (he : e ∈ (chunkGo fuel acc rest).flatMap
      (fun ck => goChunk lat cat sc ck [])) :
    e.category = cat ∧ e.name ∈ (acc.reverse ++ rest).map cleanChannelName := by
  rw [List.mem_flatMap] at he
  obtain ⟨ck, hck, he'⟩ := he
  obtain ⟨h₁, h₂⟩ := mem_goChunk lat cat sc ck [] e he'
  refine ⟨h₁, ?_⟩
  rw [List.mem_map] at h₂
  obtain ⟨m, hm, hme⟩ := h₂
  rw [← hme]
  refine List.mem_map_of_mem cleanChannelName ?_
  rw [← flatten_chunkGo rest acc fuel]
  rw [List.mem_flatten]
  exact ⟨ck, hck, hm⟩

lemma mem_renderCategory (lat : Str → WithTop ℚ) (cat : Str)
    (names : List Str) (sc : Index) (e : Entry)
    (he : e ∈ renderCategory lat cat names sc) :
    e.category = cat ∧ e.name ∈ names.map cleanChannelName := by
  have := mem_flatMap_chunks lat cat sc names [] 100 e he
  simpa using this

lemma pairwise_goChunk (lat : Str → WithTop ℚ) (cat : Str) (sc : Index)
    (full : List Str) (hnd : (full.map cleanChannelName).Nodup) :
    ∀ (ns pre post w : List Str), pre ++ ns ++ post = full →
      (goChunk lat cat sc ns w).Pairwise (fun e₁ e₂ =>
        (full.map cleanChannelName).indexOf e₁.name ≤
          (full.map cleanChannelName).indexOf e₂.name) := by
  intro ns
  induction ns with
  | nil =>
    intro pre post w _
    rw [goChunk]
    exact List.Pairwise.nil
  | cons n ns ih =>
    intro pre post w hfull
    rw [goChunk, List.pairwise_append]
    refine ⟨?_, ?_, ?_⟩
    · apply pairwise_of_all
      intro a ha b hb
      have ha' := (mem_writeUrls _ _ _ _ a ha).2
      have hb' := (mem_writeUrls _ _ _ _ b hb).2
      rw [ha', hb']
    · refine ih (pre ++ [n]) post _ ?_
      rw [← hfull]
      simp
    · intro a ha b hb
      have ha' := (mem_writeUrls _ _ _ _ a ha).2
      have hb' := (mem_goChunk lat cat sc ns _ b hb).2
      have hsplit : full.map cleanChannelName =
          (pre.map cleanChannelName ++ [cleanChannelName n]) ++
            (ns.map cleanChannelName ++ post.map cleanChannelName) := by
        rw [← hfull]; simp
      have hlt := indexOf_lt_of_append_nodup
        (by rw [← hsplit]; exact hnd)
        (show a.name ∈ pre.map cleanChannelName ++ [cleanChannelName n] by
          rw [ha']
          exact List.mem_append.mpr (Or.inr (List.mem_singleton_self _)))
        (show b.name ∈ ns.map cleanChannelName ++ post.map cleanChannelName
          from List.mem_append.mpr (Or.inl hb'))
      rw [hsplit]
      exact le_of_lt hlt

lemma pairwise_chunks (lat : Str → WithTop ℚ) (cat : Str) (sc : Index)
    (full : List Str) (hnd : (full.map cleanChannelName).Nodup) :
    ∀ (rest acc : List Str) (fuel : Nat) (pre : List Str),
      pre ++ acc.reverse ++ rest = full →
      ((chunkGo fuel acc rest).flatMap
          (fun ck => goChunk lat cat sc ck [])).Pairwise
        (fun e₁ e₂ =>
          (full.map cleanChannelName).indexOf e₁.name ≤
            (full.map cleanChannelName).indexOf e₂.name) := by
  intro rest
  induction rest with
  | nil =>
    intro acc fuel pre hfull
    rw [chunkGo]
    by_cases h : acc = []
    · rw [if_pos h]
      simp only [List.flatMap_nil]
      exact List.Pairwise.nil
    · rw [if_neg h]
      simp only [List.flatMap_cons, List.flatMap_nil, List.append_nil]
      exact pairwise_goChunk lat cat sc full hnd acc.reverse pre [] [] hfull
  | cons c t ih =>
    intro acc fuel pre hfull
    cases fuel with
    | zero =>
      rw [chunkGo]
      simp only [List.flatMap_cons]
      rw [List.pairwise_append]
      refine ⟨?_, ?_, ?_⟩
      · exact pairwise_goChunk lat cat sc full hnd acc.reverse pre (c :: t)
          [] hfull
      · refine ih [c] 99 (pre ++ acc.reverse) ?_
        rw [← hfull]
        simp
      · intro a ha b hb
        have ha' := (mem_goChunk lat cat sc acc.reverse [] a ha).2
        have hb' := (mem_flatMap_chunks lat cat sc t [c] 99 b hb).2
        have hsplit : full.map cleanChannelName =
            (pre.map cleanChannelName ++ acc.reverse.map cleanChannelName) ++
              (c :: t).map cleanChannelName := by
          rw [← hfull]; simp
        have hlt := indexOf_lt_of_append_nodup
          (by rw [← hsplit]; exact hnd)
          (show a.name ∈ pre.map cleanChannelName ++
              acc.reverse.map cleanChannelName
            from List.mem_append.mpr (Or.inr ha'))
          (show b.name ∈ (c :: t).map cleanChannelName by simpa using hb')
        rw [hsplit]
        exact le_of_lt hlt
    | succ k =>
      rw [chunkGo]
      refine ih (c :: acc) k pre ?_
      rw [← hfull]
      simp

lemma lookupIdx_of_nodup_split {tmpl pre rest : List (Str × List Str)}
    {cat : Str} {names : List Str}
    (hnd : (tmpl.map Prod.fst).Nodup)
    (heq : pre ++ (cat, names) :: rest = tmpl) :
    lookupIdx tmpl cat = some names := by
  subst heq
  induction pre with
  | nil => rw [List.nil_append, lookupIdx_cons, if_pos rfl]
  | cons e t ih =>
    rw [List.cons_append, lookupIdx_cons]
    rw [List.cons_append, List.map_cons, List.nodup_cons] at hnd
    have hne : ¬e.1 = cat := fun hec => hnd.1 (by
      rw [hec, List.map_append]
      exact List.mem_append.mpr (Or.inr (by
        rw [List.map_cons]
        exact List.mem_cons_self _ _)))
    rw [if_neg hne]
    exact ih hnd.2

lemma pairwise_categories (lat : Str → WithTop ℚ) (sc : Index)
    (tmpl : List (Str × List Str))
    (hcat : (tmpl.map Prod.fst).Nodup)
    (hchan : ∀ p ∈ tmpl, (p.2.map cleanChannelName).Nodup) :
    ∀ (rest preT : List (Str × List Str)), preT ++ rest = tmpl →
      (rest.flatMap (fun e => renderCategory lat e.1 e.2 sc)).Pairwise
        (posLe tmpl) := by
  intro rest
  induction rest with
  | nil =>
    intro preT _
    simp only [List.flatMap_nil]
    exact List.Pairwise.nil
  | cons p rest ih =>
    intro preT heq
    simp only [List.flatMap_cons]
    rw [List.pairwise_append]
    refine ⟨?_, ih (preT ++ [p]) (by rw [← heq]; simp), ?_⟩
    · have hpmem : p ∈ tmpl := by
        rw [← heq]
        exact List.mem_append.mpr (Or.inr (List.mem_cons_self _ _))
      have hlk : lookupIdx tmpl p.1 = some p.2 :=
        lookupIdx_of_nodup_split hcat heq
      have hnames : chanNames tmpl p.1 = p.2.map cleanChannelName := by
        unfold chanNames
        rw [hlk]
        rfl
      have hpw := pairwise_chunks lat p.1 sc p.2 (hchan p hpmem) p.2 [] 100
        [] (by simp)
      refine List.Pairwise.imp_of_mem ?_ hpw
      intro a b ha hb hab
      have ha' := mem_renderCategory lat p.1 p.2 sc a ha
      have hb' := mem_renderCategory lat p.1 p.2 sc b hb
      right
      refine ⟨by rw [ha'.1, hb'.1], ?_⟩
      rw [ha'.1, hnames]
      exact hab
    · intro a ha b hb
      have ha' := (mem_renderCategory lat p.1 p.2 sc a ha).1
      rw [List.mem_flatMap] at hb
      obtain ⟨q, hq, hbq⟩ := hb
      have hb' := (mem_renderCategory lat q.1 q.2 sc b hbq).1
      left
      have hsplit : tmpl.map Prod.fst =
          (preT.map Prod.fst ++ [p.1]) ++ rest.map Prod.fst := by
        rw [← heq]; simp
      have hlt := indexOf_lt_of_append_nodup
        (by rw [← hsplit]; exact hcat)
        (show a.category ∈ preT.map Prod.fst ++ [p.1] by
          rw [ha']
          exact List.mem_append.mpr (Or.inr (List.mem_singleton_self _)))
        (show b.category ∈ rest.map Prod.fst by
          rw [hb']
          exact List.mem_map_of_mem Prod.fst hq)
      rw [hsplit]
      exact hlt

lemma processChannelR_congr {sc₁ sc₂ : Index}
    (h : ∀ n, lookupIdx sc₁ n = lookupIdx sc₂ n)
    (lat : Str → WithTop ℚ) (cat : Str) (w : List Str) (n : Str) :
    processChannelR lat cat sc₁ w n = processChannelR lat cat sc₂ w n := by
  unfold processChannelR
  rw [h]

lemma goChunk_congr {sc₁ sc₂ : Index}
    (h : ∀ n, lookupIdx sc₁ n = lookupIdx sc₂ n)
    (lat : Str → WithTop ℚ) (cat : Str) :
    ∀ ns w, goChunk lat cat sc₁ ns w = goChunk lat cat sc₂ ns w := by
  intro ns
  induction ns with
  | nil => intro w; rfl
  | cons n ns ih =>
    intro w
    rw [goChunk, goChunk, processChannelR_congr h, ih]

lemma renderCategory_congr {sc₁ sc₂ : Index}
    (h : ∀ n, lookupIdx sc₁ n = lookupIdx sc₂ n)
    (lat : Str → WithTop ℚ) (cat : Str) (names : List Str) :
    renderCategory lat cat names sc₁ = renderCategory lat cat names sc₂ := by
  unfold renderCategory
  have hfun : (fun ck => goChunk lat cat sc₁ ck []) =
      (fun ck => goChunk lat cat sc₂ ck []) :=
    funext fun ck => goChunk_congr h lat cat ck []
  rw [hfun]

/-- C10: the rendered entry stream is ordered by template position —
category blocks in template declaration order and, within a category,
channel blocks in the template's declared channel order (stated for
templates without duplicate category labels or duplicate cleaned channel
names, where "position in the template" is well defined) — and the merged
index influences rendering only through key lookup: two indexes with the
same lookup function (e.g. different insertion orders) render
identically. -/
theorem template_order_authoritative (lat : Str → WithTop ℚ)
    (tmpl : List (Str × List Str)) (allCh₁ allCh₂ : Index)
    (hcat : (tmpl.map Prod.fst).Nodup)
    (hchan : ∀ p ∈ tmpl, (p.2.map cleanChannelName).Nodup) :
    (writeChannelData lat tmpl allCh₁).Pairwise (posLe tmpl) ∧
    ((∀ n, lookupIdx allCh₁ n = lookupIdx allCh₂ n) →
      writeChannelData lat tmpl allCh₁ = writeChannelData lat tmpl allCh₂)
    := by
  constructor
  · exact pairwise_categories lat (sortChannelsBySpeed lat allCh₁) tmpl
      hcat hchan tmpl [] rfl
  · intro h
    have hsc : ∀ n, lookupIdx (sortChannelsBySpeed lat allCh₁) n =
        lookupIdx (sortChannelsBySpeed lat allCh₂) n := by
      intro n
      unfold sortChannelsBySpeed
      rw [lookupIdx_map_value, lookupIdx_map_value, h n]
    unfold writeChannelData
    have hfun : (fun e : Str × List Str =>
        renderCategory lat e.1 e.2 (sortChannelsBySpeed lat allCh₁)) =
        (fun e : Str × List Str =>
          renderCategory lat e.1 e.2 (sortChannelsBySpeed lat allCh₂)) :=
      funext fun e => renderCategory_congr hsc lat e.1 e.2
    rw [hfun]

/-- Concrete two-category template for the C10 witness: "WS" declared
before "YS", as in the spec's 卫视-before-央视 example. -/
def tmplW : List (Str × List Str) :=
  [(ofStr "WS", [ofStr "HNTV"]), (ofStr "YS", [ofStr "CCTV3"])]

/-- Concrete merged index whose insertion order is opposite to `tmplW`. -/
def allChW₁ : Index :=
  [(ofStr "CCTV3", [ofStr "http://2.2.2.2/c"]),
   (ofStr "HNTV", [ofStr "http://2.2.2.3/h"])]

/-- `allChW₁` with the two channels inserted in the other order. -/
def allChW₂ : Index :=
  [(ofStr "HNTV", [ofStr "http://2.2.2.3/h"]),
   (ofStr "CCTV3", [ofStr "http://2.2.2.2/c"])]

/-- Witness for C10 at a concrete template and two concrete indexes. -/
theorem template_order_authoritative_witness :
    (writeChannelData (fun _ => ((10 : ℚ) : WithTop ℚ)) tmplW
        allChW₁).Pairwise (posLe tmplW) ∧
    ((∀ n, lookupIdx allChW₁ n = lookupIdx allChW₂ n) →
      writeChannelData (fun _ => ((10 : ℚ) : WithTop ℚ)) tmplW allChW₁ =
        writeChannelData (fun _ => ((10 : ℚ) : WithTop ℚ)) tmplW allChW₂) :=
  template_order_authoritative _ tmplW allChW₁ allChW₂ (by decide) (by decide)
